import Mathlib

/-!
# Verification of the `elastic_importer` CSV-to-bulk-upload pipeline

Shallow embedding of `src/main.rs` (a one-shot CSV → Elasticsearch bulk
importer) and proofs about it.  Strings are modelled as `List Char`
(the source tokenizer reads the buffer byte by byte and casts each byte
to `char`; all inputs of interest are ASCII, where the two views agree);
the reader's cursor is a `Nat` index into the buffer, exactly as in the
source (`CsvReader { buf, idx }`).  All definitions are computable.
-/

namespace ElasticImporter

/-! ## Tokenizer (`CsvReader::next_record`, main.rs lines 159–235)

`scanRecord` is the record-scanning `while` loop of `next_record`, with
the loop state (`fields`, `field`, `in_quotes`, `i`) passed explicitly;
it returns the loop's final `(fields, field, i)`.  `refScan` is the very
same loop expressed over the remaining input list (`buf.drop i`) instead
of an index; `scanRecord_eq_refScan` below proves the two equal, and the
list form carries the heavy proofs. -/

def refScan : List Char → List Char → List (List Char) → Bool → List (List Char) × List Char × List Char
  | [], field, fields, _ => (fields, field, [])
  | '\"' :: '\"' :: rest, field, fields, true => refScan rest (field ++ ['\"']) fields true
  | '\"' :: rest, field, fields, true => refScan rest field fields false
  | c :: rest, field, fields, true => refScan rest (field ++ [c]) fields true
  | '\"' :: rest, field, fields, false => refScan rest field fields true
  | ',' :: rest, field, fields, false => refScan rest [] (fields ++ [field]) false
  | '\n' :: rest, field, fields, false => (fields ++ [field], [], rest)
  | '\r' :: '\n' :: rest, field, fields, false => (fields ++ [field], [], rest)
  | '\r' :: rest, field, fields, false => (fields ++ [field], [], rest)
  | c :: rest, field, fields, false => refScan rest (field ++ [c]) fields false

/-- The scanning loop of `CsvReader::next_record`, indexing the buffer as
the Rust code does (`bytes[i]`, with one-byte lookahead for `""` and
`\r\n`). -/
def scanRecord (bytes : List Char) (i : Nat) (field : List Char) (fields : List (List Char)) (inQ : Bool) : List (List Char) × List Char × Nat :=
  if h : i < bytes.length then
    let c := bytes[i]
    if inQ then
      if c = '\"' then
        if h2 : i + 1 < bytes.length then
          if bytes[i + 1] = '\"' then scanRecord bytes (i + 2) (field ++ ['\"']) fields true
          else scanRecord bytes (i + 1) field fields false
        else scanRecord bytes (i + 1) field fields false
      else scanRecord bytes (i + 1) (field ++ [c]) fields true
    else
      if c = '\"' then scanRecord bytes (i + 1) field fields true
      else if c = ',' then scanRecord bytes (i + 1) [] (fields ++ [field]) false
      else if c = '\n' then (fields ++ [field], [], i + 1)
      else if c = '\r' then
        if h2 : i + 1 < bytes.length then
          if bytes[i + 1] = '\n' then (fields ++ [field], [], i + 2)
          else (fields ++ [field], [], i + 1)
        else (fields ++ [field], [], i + 1)
      else scanRecord bytes (i + 1) (field ++ [c]) fields false
  else (fields, field, i)
termination_by bytes.length - i
decreasing_by all_goals omega

/-- `CsvReader::next_record` (main.rs 159–235): returns the record (if
any) together with the updated cursor `idx`.  After the loop, a pending
field is pushed whenever the cursor reached the end of the buffer and
something was accumulated (line 225); the call yields `none` when no
fields were produced and the input is exhausted (line 230). -/
def nextRecord (buf : List Char) (idx : Nat) : Option (List (List Char)) × Nat :=
  if buf.length ≤ idx then (none, idx)
  else
    match scanRecord buf idx [] [] false with
    | (fields, field, i) =>
      let fields2 := if buf.length ≤ i ∧ (field ≠ [] ∨ fields ≠ []) then fields ++ [field] else fields
      if fields2 = [] ∧ buf.length ≤ i then (none, i) else (some fields2, i)

/-- `next_record` phrased over the remaining input; image of `nextRecord`
under `buf.drop` (proved in `nextRecord_eq_ref`). -/
def nextRecordRef (l : List Char) : Option (List (List Char)) × List Char :=
  if l = [] then (none, l)
  else
    match refScan l [] [] false with
    | (fields, field, rem) =>
      let fields2 := if rem = [] ∧ (field ≠ [] ∨ fields ≠ []) then fields ++ [field] else fields
      if fields2 = [] ∧ rem = [] then (none, rem) else (some fields2, rem)

/-! ### Conditional unfolding equations for `refScan` -/

theorem refScan_quote_close (rest field : List Char) (fields : List (List Char))
    (hne : rest.head? ≠ some '\"') :
    refScan ('\"' :: rest) field fields true = refScan rest field fields false := by
  match rest with
  | [] => rfl
  | c :: r =>
    have hc : c ≠ '\"' := by intro hh; rw [hh] at hne; simp at hne
    simp [refScan, hc]

theorem refScan_in_quotes (c : Char) (rest field : List Char) (fields : List (List Char))
    (hc : c ≠ '\"') :
    refScan (c :: rest) field fields true = refScan rest (field ++ [c]) fields true := by
  simp [refScan, hc]

theorem refScan_cr_plain (rest field : List Char) (fields : List (List Char))
    (hne : rest.head? ≠ some '\n') :
    refScan ('\r' :: rest) field fields false = (fields ++ [field], [], rest) := by
  match rest with
  | [] => rfl
  | c :: r =>
    have hc : c ≠ '\n' := by intro hh; rw [hh] at hne; simp at hne
    simp [refScan, hc]

theorem refScan_plain (c : Char) (rest field : List Char) (fields : List (List Char))
    (h1 : c ≠ '\"') (h2 : c ≠ ',') (h3 : c ≠ '\n') (h4 : c ≠ '\r') :
    refScan (c :: rest) field fields false = refScan rest (field ++ [c]) fields false := by
  simp [refScan, h1, h2, h3, h4]

/-! ### Basic facts about the scanner -/

theorem refScan_rem_lt (l : List Char) (field : List Char) (fields : List (List Char)) (q : Bool) :
    l = [] ∨ (refScan l field fields q).2.2.length < l.length := by
  induction l, field, fields, q using refScan.induct with
  | case1 field fields q => exact Or.inl rfl
  | case2 rest field fields IH =>
    right
    rcases IH with rfl | hlt
    · simp [refScan]
    · simp only [refScan]; simp only [List.length_cons]; omega
  | case3 rest field fields hne IH =>
    right
    have heq := refScan_quote_close rest field fields (by
      match rest, hne with
      | [], _ => simp
      | c :: r, hne =>
        have hc : c ≠ '\"' := fun hh => hne r (by rw [hh])
        simp [hc])
    rw [heq]
    rcases IH with rfl | hlt
    · simp [refScan]
    · simp only [List.length_cons]; omega
  | case4 c rest field fields hne hc IH =>
    right
    have hc1 : c ≠ '\"' := fun hh => hc hh
    rw [refScan_in_quotes c rest field fields hc1]
    rcases IH with rfl | hlt
    · simp [refScan]
    · simp only [List.length_cons]; omega
  | case5 rest field fields IH =>
    right
    rcases IH with rfl | hlt
    · simp [refScan]
    · simp only [refScan]; simp only [List.length_cons]; omega
  | case6 rest field fields IH =>
    right
    rcases IH with rfl | hlt
    · simp [refScan]
    · simp only [refScan]; simp only [List.length_cons]; omega
  | case7 rest field fields => right; simp [refScan]
  | case8 rest field fields => right; simp only [refScan]; simp only [List.length_cons]; omega
  | case9 rest field fields hne =>
    right
    rw [refScan_cr_plain rest field fields (by
      match rest, hne with
      | [], _ => simp
      | c :: r, hne =>
        have hc : c ≠ '\n' := fun hh => hne r (by rw [hh])
        simp [hc])]
    simp only [List.length_cons]; omega
  | case10 c rest field fields h1 h2 h3 h4 h5 IH =>
    right
    have hc1 : c ≠ '\"' := fun hh => h1 hh
    have hc2 : c ≠ ',' := fun hh => h2 hh
    have hc3 : c ≠ '\n' := fun hh => h3 hh
    have hc5 : c ≠ '\r' := fun hh => h5 hh
    rw [refScan_plain c rest field fields hc1 hc2 hc3 hc5]
    rcases IH with rfl | hlt
    · simp [refScan]
    · simp only [List.length_cons]; omega

theorem refScan_fields_ne_nil (l : List Char) (field : List Char) (fields : List (List Char)) (q : Bool)
    (h : (refScan l field fields q).2.2 ≠ []) : (refScan l field fields q).1 ≠ [] := by
  induction l, field, fields, q using refScan.induct with
  | case1 field fields q => simp [refScan] at h
  | case2 rest field fields IH => simp only [refScan] at h ⊢; exact IH h
  | case3 rest field fields hne IH =>
    have heq := refScan_quote_close rest field fields (by
      match rest, hne with
      | [], _ => simp
      | c :: r, hne =>
        have hc : c ≠ '\"' := fun hh => hne r (by rw [hh])
        simp [hc])
    rw [heq] at h ⊢; exact IH h
  | case4 c rest field fields hne hc IH =>
    have hc1 : c ≠ '\"' := fun hh => hc hh
    rw [refScan_in_quotes c rest field fields hc1] at h ⊢; exact IH h
  | case5 rest field fields IH => simp only [refScan] at h ⊢; exact IH h
  | case6 rest field fields IH => simp only [refScan] at h ⊢; exact IH h
  | case7 rest field fields => simp [refScan]
  | case8 rest field fields => simp [refScan]
  | case9 rest field fields hne =>
    have heq := refScan_cr_plain rest field fields (by
      match rest, hne with
      | [], _ => simp
      | c :: r, hne =>
        have hc : c ≠ '\n' := fun hh => hne r (by rw [hh])
        simp [hc])
    rw [heq]; simp
  | case10 c rest field fields h1 h2 h3 h4 h5 IH =>
    have hc1 : c ≠ '\"' := fun hh => h1 hh
    have hc2 : c ≠ ',' := fun hh => h2 hh
    have hc3 : c ≠ '\n' := fun hh => h3 hh
    have hc5 : c ≠ '\r' := fun hh => h5 hh
    rw [refScan_plain c rest field fields hc1 hc2 hc3 hc5] at h ⊢; exact IH h

theorem refScan_qq (rest field : List Char) (fields : List (List Char)) :
    refScan ('\"' :: '\"' :: rest) field fields true = refScan rest (field ++ ['\"']) fields true := by
  simp [refScan]

theorem refScan_open_quote (rest field : List Char) (fields : List (List Char)) :
    refScan ('\"' :: rest) field fields false = refScan rest field fields true := by
  simp [refScan]

theorem refScan_comma (rest field : List Char) (fields : List (List Char)) :
    refScan (',' :: rest) field fields false = refScan rest [] (fields ++ [field]) false := by
  simp [refScan]

theorem refScan_lf (rest field : List Char) (fields : List (List Char)) :
    refScan ('\n' :: rest) field fields false = (fields ++ [field], [], rest) := by
  simp [refScan]

theorem refScan_crlf (rest field : List Char) (fields : List (List Char)) :
    refScan ('\r' :: '\n' :: rest) field fields false = (fields ++ [field], [], rest) := by
  simp [refScan]

/-! ### The index-based loop equals the list-based loop -/

theorem scanRecord_eq_aux : ∀ (n : Nat) (bytes : List Char) (i : Nat) (field : List Char)
    (fields : List (List Char)) (q : Bool), bytes.length - i ≤ n → i ≤ bytes.length →
    ∃ j, i ≤ j ∧ j ≤ bytes.length ∧
      scanRecord bytes i field fields q =
        ((refScan (bytes.drop i) field fields q).1, (refScan (bytes.drop i) field fields q).2.1, j) ∧
      (refScan (bytes.drop i) field fields q).2.2 = bytes.drop j := by
  intro n
  induction n with
  | zero =>
    intro bytes i field fields q hn hi
    have hlen : bytes.length ≤ i := by omega
    refine ⟨i, Nat.le_refl i, hi, ?_, ?_⟩
    · rw [List.drop_eq_nil_of_le hlen, scanRecord.eq_def, dif_neg (by omega : ¬ i < bytes.length)]
      rfl
    · rw [List.drop_eq_nil_of_le hlen]
      rfl
  | succ n IH =>
    intro bytes i field fields q hn hi
    by_cases h : i < bytes.length
    case neg =>
      have hlen : bytes.length ≤ i := by omega
      refine ⟨i, Nat.le_refl i, hi, ?_, ?_⟩
      · rw [List.drop_eq_nil_of_le hlen, scanRecord.eq_def, dif_neg (by omega : ¬ i < bytes.length)]
        rfl
      · rw [List.drop_eq_nil_of_le hlen]
        rfl
    case pos =>
      have hdrop : bytes.drop i = bytes[i] :: bytes.drop (i + 1) := List.drop_eq_getElem_cons h
      cases q with
      | true =>
        by_cases hc : bytes[i] = '\"'
        · by_cases h2 : i + 1 < bytes.length
          · have hdrop2 : bytes.drop (i + 1) = bytes[i + 1] :: bytes.drop (i + 2) :=
              List.drop_eq_getElem_cons h2
            have hhead : (bytes.drop (i + 1)).head? = some bytes[i + 1] := by rw [hdrop2]; rfl
            by_cases hc2 : bytes[i + 1] = '\"'
            · have hs : scanRecord bytes i field fields true =
                  scanRecord bytes (i + 2) (field ++ ['\"']) fields true := by
                rw [scanRecord.eq_def]
                simp [h, h2, hc, hc2]
              have hr : refScan (bytes.drop i) field fields true =
                  refScan (bytes.drop (i + 2)) (field ++ ['\"']) fields true := by
                rw [hdrop, hdrop2, hc, hc2, refScan_qq]
              obtain ⟨j, hij, hjl, hseq, hrem⟩ :=
                IH bytes (i + 2) (field ++ ['\"']) fields true (by omega) (by omega)
              exact ⟨j, by omega, hjl, by rw [hs, hr]; exact hseq, by rw [hr]; exact hrem⟩
            · have hs : scanRecord bytes i field fields true =
                  scanRecord bytes (i + 1) field fields false := by
                rw [scanRecord.eq_def]
                simp [h, h2, hc, hc2]
              have hr : refScan (bytes.drop i) field fields true =
                  refScan (bytes.drop (i + 1)) field fields false := by
                rw [hdrop, hc]
                exact refScan_quote_close _ field fields (by rw [hhead]; simp [hc2])
              obtain ⟨j, hij, hjl, hseq, hrem⟩ :=
                IH bytes (i + 1) field fields false (by omega) (by omega)
              exact ⟨j, by omega, hjl, by rw [hs, hr]; exact hseq, by rw [hr]; exact hrem⟩
          · have hs : scanRecord bytes i field fields true =
                scanRecord bytes (i + 1) field fields false := by
              rw [scanRecord.eq_def]
              simp [h, h2, hc]
            have hr : refScan (bytes.drop i) field fields true =
                refScan (bytes.drop (i + 1)) field fields false := by
              rw [hdrop, hc]
              exact refScan_quote_close _ field fields (by
                rw [List.drop_eq_nil_of_le (by omega : bytes.length ≤ i + 1)]; simp)
            obtain ⟨j, hij, hjl, hseq, hrem⟩ :=
              IH bytes (i + 1) field fields false (by omega) (by omega)
            exact ⟨j, by omega, hjl, by rw [hs, hr]; exact hseq, by rw [hr]; exact hrem⟩
        · have hs : scanRecord bytes i field fields true =
              scanRecord bytes (i + 1) (field ++ [bytes[i]]) fields true := by
            rw [scanRecord.eq_def]
            simp [h, hc]
          have hr : refScan (bytes.drop i) field fields true =
              refScan (bytes.drop (i + 1)) (field ++ [bytes[i]]) fields true := by
            rw [hdrop]
            exact refScan_in_quotes _ _ field fields hc
          obtain ⟨j, hij, hjl, hseq, hrem⟩ :=
            IH bytes (i + 1) (field ++ [bytes[i]]) fields true (by omega) (by omega)
          exact ⟨j, by omega, hjl, by rw [hs, hr]; exact hseq, by rw [hr]; exact hrem⟩
      | false =>
        by_cases hc : bytes[i] = '\"'
        · have hs : scanRecord bytes i field fields false =
              scanRecord bytes (i + 1) field fields true := by
            rw [scanRecord.eq_def]
            simp [h, hc]
          have hr : refScan (bytes.drop i) field fields false =
              refScan (bytes.drop (i + 1)) field fields true := by
            rw [hdrop, hc, refScan_open_quote]
          obtain ⟨j, hij, hjl, hseq, hrem⟩ :=
            IH bytes (i + 1) field fields true (by omega) (by omega)
          exact ⟨j, by omega, hjl, by rw [hs, hr]; exact hseq, by rw [hr]; exact hrem⟩
        · by_cases hcm : bytes[i] = ','
          · have hs : scanRecord bytes i field fields false =
                scanRecord bytes (i + 1) [] (fields ++ [field]) false := by
              rw [scanRecord.eq_def]
              simp [h, hc, hcm]
            have hr : refScan (bytes.drop i) field fields false =
                refScan (bytes.drop (i + 1)) [] (fields ++ [field]) false := by
              rw [hdrop, hcm, refScan_comma]
            obtain ⟨j, hij, hjl, hseq, hrem⟩ :=
              IH bytes (i + 1) [] (fields ++ [field]) false (by omega) (by omega)
            exact ⟨j, by omega, hjl, by rw [hs, hr]; exact hseq, by rw [hr]; exact hrem⟩
          · by_cases hlf : bytes[i] = '\n'
            · have hs : scanRecord bytes i field fields false = (fields ++ [field], [], i + 1) := by
                rw [scanRecord.eq_def]
                simp [h, hc, hcm, hlf]
              have hr : refScan (bytes.drop i) field fields false =
                  (fields ++ [field], [], bytes.drop (i + 1)) := by
                rw [hdrop, hlf, refScan_lf]
              exact ⟨i + 1, by omega, by omega, by rw [hs, hr], by rw [hr]⟩
            · by_cases hcr : bytes[i] = '\r'
              · by_cases h2 : i + 1 < bytes.length
                · have hdrop2 : bytes.drop (i + 1) = bytes[i + 1] :: bytes.drop (i + 2) :=
                    List.drop_eq_getElem_cons h2
                  have hhead : (bytes.drop (i + 1)).head? = some bytes[i + 1] := by rw [hdrop2]; rfl
                  by_cases hc2 : bytes[i + 1] = '\n'
                  · have hs : scanRecord bytes i field fields false =
                        (fields ++ [field], [], i + 2) := by
                      rw [scanRecord.eq_def]
                      simp [h, h2, hc, hcm, hlf, hcr, hc2]
                    have hr : refScan (bytes.drop i) field fields false =
                        (fields ++ [field], [], bytes.drop (i + 2)) := by
                      rw [hdrop, hdrop2, hcr, hc2, refScan_crlf]
                    exact ⟨i + 2, by omega, by omega, by rw [hs, hr], by rw [hr]⟩
                  · have hs : scanRecord bytes i field fields false =
                        (fields ++ [field], [], i + 1) := by
                      rw [scanRecord.eq_def]
                      simp [h, h2, hc, hcm, hlf, hcr, hc2]
                    have hr : refScan (bytes.drop i) field fields false =
                        (fields ++ [field], [], bytes.drop (i + 1)) := by
                      rw [hdrop, hcr]
                      exact refScan_cr_plain _ field fields (by rw [hhead]; simp [hc2])
                    exact ⟨i + 1, by omega, by omega, by rw [hs, hr], by rw [hr]⟩
                · have hs : scanRecord bytes i field fields false =
                      (fields ++ [field], [], i + 1) := by
                    rw [scanRecord.eq_def]
                    simp [h, h2, hc, hcm, hlf, hcr]
                  have hr : refScan (bytes.drop i) field fields false =
                      (fields ++ [field], [], bytes.drop (i + 1)) := by
                    rw [hdrop, hcr]
                    exact refScan_cr_plain _ field fields (by
                      rw [List.drop_eq_nil_of_le (by omega : bytes.length ≤ i + 1)]; simp)
                  exact ⟨i + 1, by omega, by omega, by rw [hs, hr], by rw [hr]⟩
              · have hs : scanRecord bytes i field fields false =
                    scanRecord bytes (i + 1) (field ++ [bytes[i]]) fields false := by
                  rw [scanRecord.eq_def]
                  simp [h, hc, hcm, hlf, hcr]
                have hr : refScan (bytes.drop i) field fields false =
                    refScan (bytes.drop (i + 1)) (field ++ [bytes[i]]) fields false := by
                  rw [hdrop]
                  exact refScan_plain _ _ field fields hc hcm hlf hcr
                obtain ⟨j, hij, hjl, hseq, hrem⟩ :=
                  IH bytes (i + 1) (field ++ [bytes[i]]) fields false (by omega) (by omega)
                exact ⟨j, by omega, hjl, by rw [hs, hr]; exact hseq, by rw [hr]; exact hrem⟩

theorem scanRecord_eq (bytes : List Char) (i : Nat) (field : List Char)
    (fields : List (List Char)) (q : Bool) (hi : i ≤ bytes.length) :
    ∃ j, i ≤ j ∧ j ≤ bytes.length ∧
      scanRecord bytes i field fields q =
        ((refScan (bytes.drop i) field fields q).1, (refScan (bytes.drop i) field fields q).2.1, j) ∧
      (refScan (bytes.drop i) field fields q).2.2 = bytes.drop j :=
  scanRecord_eq_aux (bytes.length - i) bytes i field fields q (Nat.le_refl _) hi

theorem nextRecord_eq_ref (buf : List Char) (idx : Nat) (hi : idx ≤ buf.length) :
    ∃ j, idx ≤ j ∧ j ≤ buf.length ∧
      nextRecord buf idx = ((nextRecordRef (buf.drop idx)).1, j) ∧
      (nextRecordRef (buf.drop idx)).2 = buf.drop j := by
  by_cases h : buf.length ≤ idx
  · refine ⟨idx, Nat.le_refl idx, hi, ?_, ?_⟩
    · rw [nextRecord, if_pos h, List.drop_eq_nil_of_le h]
      rfl
    · rw [List.drop_eq_nil_of_le h]
      rfl
  · have hdne : buf.drop idx ≠ [] := by
      rw [ne_eq, List.drop_eq_nil_iff]; omega
    obtain ⟨j, hij, hjl, hs, hr⟩ := scanRecord_eq buf idx [] [] false hi
    have hr2 : refScan (buf.drop idx) [] [] false =
        ((refScan (buf.drop idx) [] [] false).1, (refScan (buf.drop idx) [] [] false).2.1,
          buf.drop j) := by
      rw [← hr]
    refine ⟨j, hij, hjl, ?_, ?_⟩
    · rw [nextRecord, if_neg h, hs, nextRecordRef, if_neg hdne, hr2]
      simp only [List.drop_eq_nil_iff]
      split <;> split <;> rfl
    · rw [nextRecordRef, if_neg hdne, hr2]
      simp only
      split <;> split <;> rfl

theorem nextRecordRef_snd (l : List Char) (hl : l ≠ []) :
    (nextRecordRef l).2 = (refScan l [] [] false).2.2 := by
  rw [nextRecordRef, if_neg hl]
  generalize refScan l [] [] false = R
  obtain ⟨A, B, C⟩ := R
  simp only
  split <;> split <;> rfl

theorem nextRecordRef_progress {l : List Char} {r : List (List Char)} {rem : List Char}
    (h : nextRecordRef l = (some r, rem)) : rem.length < l.length := by
  by_cases hl : l = []
  · subst hl
    rw [nextRecordRef, if_pos rfl] at h
    exact absurd h (by simp)
  · have h2 : rem = (refScan l [] [] false).2.2 := by
      rw [← nextRecordRef_snd l hl, h]
    rcases refScan_rem_lt l [] [] false with hnil | hlt
    · exact absurd hnil hl
    · rw [h2]
      exact hlt

theorem nextRecord_progress {buf : List Char} {idx : Nat} {r : List (List Char)} {j : Nat}
    (h : nextRecord buf idx = (some r, j)) : idx < j ∧ j ≤ buf.length := by
  by_cases hi : buf.length ≤ idx
  · rw [nextRecord, if_pos hi] at h
    simp at h
  · have hi2 : idx ≤ buf.length := by omega
    obtain ⟨j2, hij, hjl, hseq, hrem⟩ := nextRecord_eq_ref buf idx hi2
    rw [hseq] at h
    have hj : j2 = j := (Prod.mk.injEq _ _ _ _ ▸ h).2
    subst hj
    have ho : (nextRecordRef (buf.drop idx)).1 = some r := (Prod.mk.injEq _ _ _ _ ▸ h).1
    have hfull : nextRecordRef (buf.drop idx) = (some r, buf.drop j2) := Prod.ext ho hrem
    have hlt := nextRecordRef_progress hfull
    rw [List.length_drop, List.length_drop] at hlt
    exact ⟨by omega, hjl⟩

/-- The stream of records obtained by repeatedly calling `next_record`
(the `CsvReader` iteration that `main` performs via `CsvIter`). -/
def recordsFrom (buf : List Char) (idx : Nat) : List (List (List Char)) :=
  match h : nextRecord buf idx with
  | (none, _) => []
  | (some r, j) => r :: recordsFrom buf j
termination_by buf.length - idx
decreasing_by
  have := nextRecord_progress h
  omega

/-- All records of a buffer, scanning from position 0. -/
def records (buf : List Char) : List (List (List Char)) := recordsFrom buf 0

/-- The record stream phrased over remaining input. -/
def recordsRef (l : List Char) : List (List (List Char)) :=
  match h : nextRecordRef l with
  | (none, _) => []
  | (some r, rem) => r :: recordsRef rem
termination_by l.length
decreasing_by
  exact nextRecordRef_progress h

theorem recordsFrom_nil {buf : List Char} {idx : Nat} (h : (nextRecord buf idx).1 = none) :
    recordsFrom buf idx = [] := by
  rw [recordsFrom.eq_def]
  split
  · rfl
  · rename_i r j heq
    rw [heq] at h
    simp at h

theorem recordsFrom_cons {buf : List Char} {idx : Nat} {r : List (List Char)} {j : Nat}
    (h : nextRecord buf idx = (some r, j)) : recordsFrom buf idx = r :: recordsFrom buf j := by
  rw [recordsFrom.eq_def]
  split
  · rename_i heq
    rw [heq] at h
    simp at h
  · rename_i r2 j2 heq
    rw [heq] at h
    have h1 : some r2 = some r := (Prod.mk.injEq _ _ _ _ ▸ h).1
    have h2 : j2 = j := (Prod.mk.injEq _ _ _ _ ▸ h).2
    simp only [Option.some.injEq] at h1
    rw [h1, h2]

theorem recordsRef_nil {l : List Char} (h : (nextRecordRef l).1 = none) :
    recordsRef l = [] := by
  rw [recordsRef.eq_def]
  split
  · rfl
  · rename_i r rem heq
    rw [heq] at h
    simp at h

theorem recordsRef_cons {l : List Char} {r : List (List Char)} {rem : List Char}
    (h : nextRecordRef l = (some r, rem)) : recordsRef l = r :: recordsRef rem := by
  rw [recordsRef.eq_def]
  split
  · rename_i heq
    rw [heq] at h
    simp at h
  · rename_i r2 rem2 heq
    rw [heq] at h
    have h1 : some r2 = some r := (Prod.mk.injEq _ _ _ _ ▸ h).1
    have h2 : rem2 = rem := (Prod.mk.injEq _ _ _ _ ▸ h).2
    simp only [Option.some.injEq] at h1
    rw [h1, h2]

theorem recordsFrom_eq_ref_aux : ∀ (n : Nat) (buf : List Char) (idx : Nat),
    buf.length - idx ≤ n → idx ≤ buf.length → recordsFrom buf idx = recordsRef (buf.drop idx) := by
  intro n
  induction n with
  | zero =>
    intro buf idx hn hi
    have hlen : buf.length ≤ idx := by omega
    rw [recordsFrom_nil (by rw [nextRecord, if_pos hlen]),
      List.drop_eq_nil_of_le hlen, recordsRef_nil (by rw [nextRecordRef, if_pos rfl])]
  | succ n IH =>
    intro buf idx hn hi
    obtain ⟨j, hij, hjl, hseq, hrem⟩ := nextRecord_eq_ref buf idx hi
    rcases href : nextRecordRef (buf.drop idx) with ⟨o, rem⟩
    cases o with
    | none =>
      rw [href] at hseq hrem
      rw [recordsFrom_nil (by rw [hseq]), recordsRef_nil (by rw [href])]
    | some r =>
      rw [href] at hseq hrem
      simp only at hseq hrem
      have hprog := nextRecord_progress hseq
      rw [recordsFrom_cons hseq, recordsRef_cons href, hrem,
        IH buf j (by omega) (by omega)]

theorem recordsFrom_eq_ref (buf : List Char) (idx : Nat) (hi : idx ≤ buf.length) :
    recordsFrom buf idx = recordsRef (buf.drop idx) :=
  recordsFrom_eq_ref_aux (buf.length - idx) buf idx (Nat.le_refl _) hi

theorem records_eq_ref (buf : List Char) : records buf = recordsRef buf := by
  rw [records, recordsFrom_eq_ref buf 0 (Nat.zero_le _), List.drop_zero]

/-! ## Rejoining and line-terminator normalization (spec §8, first property)

`joinC` rejoins the fields of one record with commas, `joinRecs` rejoins
records with newlines.  `normalizeNL` is modelled from the spec's
"modulo a normalized line terminator": CR LF and lone CR both normalize
to LF. -/

def joinC : List (List Char) → List Char
  | [] => []
  | [f] => f
  | f :: g :: fs => f ++ ',' :: joinC (g :: fs)

def joinRecs : List (List (List Char)) → List Char
  | [] => []
  | [r] => joinC r
  | r :: s :: rs => joinC r ++ '\n' :: joinRecs (s :: rs)

/-- Modelled from the spec: the "normalized line terminator" — `\r\n` and
lone `\r` are normalized to `\n`. -/
def normalizeNL : List Char → List Char
  | [] => []
  | '\r' :: '\n' :: rest => '\n' :: normalizeNL rest
  | '\r' :: rest => '\n' :: normalizeNL rest
  | c :: rest => c :: normalizeNL rest

theorem joinC_cons_ne (f : List Char) (fs : List (List Char)) (h : fs ≠ []) :
    joinC (f :: fs) = f ++ ',' :: joinC fs := by
  match fs, h with
  | g :: fs2, _ => rfl

theorem joinC_snoc (zs : List (List Char)) (a : List Char) (h : zs ≠ []) :
    joinC (zs ++ [a]) = joinC zs ++ ',' :: a := by
  induction zs with
  | nil => exact absurd rfl h
  | cons z zs IH =>
    cases zs with
    | nil => rfl
    | cons z2 zs2 =>
      rw [List.cons_append, joinC_cons_ne z ((z2 :: zs2) ++ [a]) (by simp),
        IH (by simp), joinC_cons_ne z (z2 :: zs2) (by simp)]
      simp

theorem joinC_grow (xs : List (List Char)) (y z : List Char) :
    joinC (xs ++ [y ++ z]) = joinC (xs ++ [y]) ++ z := by
  cases xs with
  | nil => rfl
  | cons x xs2 =>
    rw [joinC_snoc (x :: xs2) (y ++ z) (by simp), joinC_snoc (x :: xs2) y (by simp)]
    simp

theorem joinRecs_cons_ne (r : List (List Char)) (rs : List (List (List Char))) (h : rs ≠ []) :
    joinRecs (r :: rs) = joinC r ++ '\n' :: joinRecs rs := by
  match rs, h with
  | s :: rs2, _ => rfl

theorem normalizeNL_cons (c : Char) (rest : List Char) (h : c ≠ '\r') :
    normalizeNL (c :: rest) = c :: normalizeNL rest := by
  match rest with
  | [] => simp [normalizeNL, h]
  | c2 :: r2 => simp [normalizeNL, h]

theorem normalizeNL_crlf (rest : List Char) :
    normalizeNL ('\r' :: '\n' :: rest) = '\n' :: normalizeNL rest := by
  simp [normalizeNL]

theorem normalizeNL_cr (rest : List Char) (h : rest.head? ≠ some '\n') :
    normalizeNL ('\r' :: rest) = '\n' :: normalizeNL rest := by
  match rest with
  | [] => rfl
  | c2 :: r2 =>
    have hc : c2 ≠ '\n' := by intro hh; rw [hh] at h; simp at h
    simp [normalizeNL, hc]

theorem normalizeNL_of_no_cr (l : List Char) (h : '\r' ∉ l) : normalizeNL l = l := by
  induction l with
  | nil => rfl
  | cons c rest IH =>
    have hc : c ≠ '\r' := fun hh => h (by rw [hh]; exact List.mem_cons_self _ _)
    rw [normalizeNL_cons c rest hc, IH (fun hm => h (List.mem_cons_of_mem _ hm))]

theorem normalizeNL_append_no_cr (a b : List Char) (h : '\r' ∉ a) :
    normalizeNL (a ++ b) = a ++ normalizeNL b := by
  induction a with
  | nil => rfl
  | cons c rest IH =>
    have hc : c ≠ '\r' := fun hh => h (by rw [hh]; exact List.mem_cons_self _ _)
    rw [List.cons_append, normalizeNL_cons c _ hc,
      IH (fun hm => h (List.mem_cons_of_mem _ hm))]
    rfl

theorem getLast?_append_right (a b : List Char) (h : b ≠ []) :
    (a ++ b).getLast? = b.getLast? := by
  obtain ⟨x, hx⟩ := Option.isSome_iff_exists.mp (List.getLast?_isSome.mpr h)
  rw [List.getLast?_append, hx]
  rfl

/-! ### Scanning quote-free input -/

theorem refScan_no_term : ∀ (l field : List Char) (fields : List (List Char)),
    '\"' ∉ l → '\n' ∉ l → '\r' ∉ l →
    (refScan l field fields false).2.2 = [] ∧
    joinC ((refScan l field fields false).1 ++ [(refScan l field fields false).2.1]) =
      joinC (fields ++ [field]) ++ l := by
  intro l
  induction l with
  | nil =>
    intro field fields _ _ _
    exact ⟨rfl, by simp [refScan]⟩
  | cons c rest IH =>
    intro field fields hq hn hr
    have hqc : c ≠ '\"' := fun hh => hq (by rw [hh]; exact List.mem_cons_self _ _)
    have hnc : c ≠ '\n' := fun hh => hn (by rw [hh]; exact List.mem_cons_self _ _)
    have hrc : c ≠ '\r' := fun hh => hr (by rw [hh]; exact List.mem_cons_self _ _)
    have hq2 : '\"' ∉ rest := fun hm => hq (List.mem_cons_of_mem _ hm)
    have hn2 : '\n' ∉ rest := fun hm => hn (List.mem_cons_of_mem _ hm)
    have hr2 : '\r' ∉ rest := fun hm => hr (List.mem_cons_of_mem _ hm)
    by_cases hcm : c = ','
    · subst hcm
      rw [refScan_comma]
      obtain ⟨hrem, hjoin⟩ := IH [] (fields ++ [field]) hq2 hn2 hr2
      refine ⟨hrem, ?_⟩
      rw [hjoin, joinC_snoc (fields ++ [field]) [] (by simp)]
      simp
    · rw [refScan_plain c rest field fields hqc hcm hnc hrc]
      obtain ⟨hrem, hjoin⟩ := IH (field ++ [c]) fields hq2 hn2 hr2
      refine ⟨hrem, ?_⟩
      rw [hjoin, joinC_grow fields field [c]]
      simp

theorem refScan_with_term : ∀ (l field : List Char) (fields : List (List Char)),
    '\"' ∉ l → ('\n' ∈ l ∨ '\r' ∈ l) →
    ∃ seg t rest fs, l = seg ++ t ++ rest ∧ '\n' ∉ seg ∧ '\r' ∉ seg ∧
      (t = ['\n'] ∨ t = ['\r', '\n'] ∨ (t = ['\r'] ∧ rest.head? ≠ some '\n')) ∧
      refScan l field fields false = (fs, [], rest) ∧ fs ≠ [] ∧
      joinC fs = joinC (fields ++ [field]) ++ seg := by
  intro l
  induction l with
  | nil =>
    intro field fields _ hterm
    rcases hterm with hterm | hterm <;> simp at hterm
  | cons c rest0 IH =>
    intro field fields hq hterm
    have hqc : c ≠ '\"' := fun hh => hq (by rw [hh]; exact List.mem_cons_self _ _)
    have hq2 : '\"' ∉ rest0 := fun hm => hq (List.mem_cons_of_mem _ hm)
    by_cases hlf : c = '\n'
    · subst hlf
      refine ⟨[], ['\n'], rest0, fields ++ [field], by simp, by simp, by simp,
        Or.inl rfl, refScan_lf rest0 field fields, by simp, by simp⟩
    · by_cases hcr : c = '\r'
      · subst hcr
        match rest0, hq2 with
        | [], _ =>
          refine ⟨[], ['\r'], [], fields ++ [field], by simp, by simp, by simp,
            Or.inr (Or.inr ⟨rfl, by simp⟩), refScan_cr_plain [] field fields (by simp),
            by simp, by simp⟩
        | c2 :: r2, hq2 =>
          by_cases hc2 : c2 = '\n'
          · subst hc2
            refine ⟨[], ['\r', '\n'], r2, fields ++ [field], by simp, by simp, by simp,
              Or.inr (Or.inl rfl), refScan_crlf r2 field fields, by simp, by simp⟩
          · refine ⟨[], ['\r'], c2 :: r2, fields ++ [field], by simp, by simp, by simp,
              Or.inr (Or.inr ⟨rfl, by simp [hc2]⟩),
              refScan_cr_plain (c2 :: r2) field fields (by simp [hc2]), by simp, by simp⟩
      · have hmem : '\n' ∈ rest0 ∨ '\r' ∈ rest0 := by
          rcases hterm with hterm | hterm
          · rcases List.mem_cons.mp hterm with hh | hh
            · exact absurd hh.symm hlf
            · exact Or.inl hh
          · rcases List.mem_cons.mp hterm with hh | hh
            · exact absurd hh.symm hcr
            · exact Or.inr hh
        by_cases hcm : c = ','
        · subst hcm
          obtain ⟨seg, t, rest, fs, hsplit, hsegn, hsegr, htv, heq, hfsne, hjoin⟩ :=
            IH [] (fields ++ [field]) hq2 hmem
          refine ⟨',' :: seg, t, rest, fs, by rw [hsplit]; simp, ?_, ?_, htv, ?_, hfsne, ?_⟩
          · simp only [List.mem_cons]
            rintro (hh | hh)
            · exact absurd hh.symm (by decide)
            · exact hsegn hh
          · simp only [List.mem_cons]
            rintro (hh | hh)
            · exact absurd hh.symm (by decide)
            · exact hsegr hh
          · rw [refScan_comma]
            exact heq
          · rw [hjoin, joinC_snoc (fields ++ [field]) [] (by simp)]
            simp
        · obtain ⟨seg, t, rest, fs, hsplit, hsegn, hsegr, htv, heq, hfsne, hjoin⟩ :=
            IH (field ++ [c]) fields hq2 hmem
          refine ⟨c :: seg, t, rest, fs, by rw [hsplit]; simp, ?_, ?_, htv, ?_, hfsne, ?_⟩
          · simp only [List.mem_cons]
            rintro (hh | hh)
            · exact absurd hh.symm hlf
            · exact hsegn hh
          · simp only [List.mem_cons]
            rintro (hh | hh)
            · exact absurd hh.symm hcr
            · exact hsegr hh
          · rw [refScan_plain c rest0 field fields hqc hcm hlf hcr]
            exact heq
          · rw [hjoin, joinC_grow fields field [c]]
            simp

/-! ### The tokenizer never yields a record with zero fields -/

theorem nextRecordRef_ne_empty {l : List Char} {r : List (List Char)} {rem : List Char}
    (h : nextRecordRef l = (some r, rem)) : r ≠ [] := by
  by_cases hl : l = []
  · rw [nextRecordRef, if_pos hl] at h
    exact absurd h (by simp)
  · rw [nextRecordRef, if_neg hl] at h
    rcases hsc : refScan l [] [] false with ⟨A, B, C⟩
    rw [hsc] at h
    simp only at h
    by_cases hcnd : C = [] ∧ (B ≠ [] ∨ A ≠ [])
    · rw [if_pos hcnd] at h
      split at h
      · exact absurd h (by simp)
      · have : A ++ [B] = r := by
          have := (Prod.mk.injEq _ _ _ _ ▸ h).1
          simpa using this
        rw [← this]
        simp
    · rw [if_neg hcnd] at h
      split at h
      · exact absurd h (by simp)
      · rename_i hcond2
        have hra : A = r := by
          have := (Prod.mk.injEq _ _ _ _ ▸ h).1
          simpa using this
        rw [← hra]
        intro hA
        subst hA
        have hC : C ≠ [] := by
          intro hC
          exact hcond2 ⟨rfl, hC⟩
        have := refScan_fields_ne_nil l [] [] false (by rw [hsc]; exact hC)
        rw [hsc] at this
        exact this rfl

theorem nextRecord_ne_empty {buf : List Char} {idx : Nat} {r : List (List Char)} {j : Nat}
    (h : nextRecord buf idx = (some r, j)) : r ≠ [] := by
  by_cases hi : buf.length ≤ idx
  · rw [nextRecord, if_pos hi] at h
    exact absurd h (by simp)
  · obtain ⟨j2, hij, hjl, hseq, hrem⟩ := nextRecord_eq_ref buf idx (by omega)
    rw [hseq] at h
    have ho : (nextRecordRef (buf.drop idx)).1 = some r := (Prod.mk.injEq _ _ _ _ ▸ h).1
    exact nextRecordRef_ne_empty (Prod.ext ho hrem)

/-! ### Quote-free round trip (spec §8, first testable property) -/

theorem nextRecordRef_some_of_quote_free (l : List Char) (hl : l ≠ []) (hq : '\"' ∉ l) :
    ∃ r rem, nextRecordRef l = (some r, rem) := by
  by_cases hterm : '\n' ∈ l ∨ '\r' ∈ l
  · obtain ⟨seg, t, rest, fs, hsplit, hsegn, hsegr, htv, heq, hfsne, hjoin⟩ :=
      refScan_with_term l [] [] hq hterm
    rw [nextRecordRef, if_neg hl, heq]
    simp only
    by_cases hrest : rest = []
    · subst hrest
      rw [if_pos (show ([] : List Char) = [] ∧ (([] : List Char) ≠ [] ∨ fs ≠ []) from
        ⟨rfl, Or.inr hfsne⟩)]
      rw [if_neg (show ¬(fs ++ [([] : List Char)] = [] ∧ ([] : List Char) = []) from
        fun hcon => by simp at hcon)]
      exact ⟨_, _, rfl⟩
    · rw [if_neg (show ¬(rest = [] ∧ (([] : List Char) ≠ [] ∨ fs ≠ [])) from
        fun hcon => hrest hcon.1)]
      rw [if_neg (show ¬(fs = [] ∧ rest = []) from fun hcon => hfsne hcon.1)]
      exact ⟨_, _, rfl⟩
  · push_neg at hterm
    obtain ⟨hrem0, hjoin0⟩ := refScan_no_term l [] [] hq hterm.1 hterm.2
    have hpush : (refScan l [] [] false).2.1 ≠ [] ∨ (refScan l [] [] false).1 ≠ [] := by
      by_contra hcon
      push_neg at hcon
      rw [hcon.1, hcon.2] at hjoin0
      simp [joinC] at hjoin0
      exact hl hjoin0
    rw [nextRecordRef, if_neg hl]
    rcases hsc : refScan l [] [] false with ⟨A, B, C⟩
    rw [hsc] at hrem0 hpush
    simp only at hrem0 hpush ⊢
    subst hrem0
    rw [if_pos (show ([] : List Char) = [] ∧ (B ≠ [] ∨ A ≠ []) from ⟨rfl, hpush⟩)]
    rw [if_neg (show ¬(A ++ [B] = [] ∧ ([] : List Char) = []) from fun hcon => by simp at hcon)]
    exact ⟨_, _, rfl⟩

theorem recordsRef_roundtrip_aux : ∀ (n : Nat) (l : List Char), l.length ≤ n → '\"' ∉ l →
    l.getLast? ≠ some '\n' → l.getLast? ≠ some '\r' →
    joinRecs (recordsRef l) = normalizeNL l := by
  intro n
  induction n with
  | zero =>
    intro l hn _ _ _
    have hl : l = [] := List.length_eq_zero.mp (by omega)
    subst hl
    rw [recordsRef_nil (by rw [nextRecordRef, if_pos rfl])]
    rfl
  | succ n IH =>
    intro l hn hq hlast1 hlast2
    by_cases hl : l = []
    · subst hl
      rw [recordsRef_nil (by rw [nextRecordRef, if_pos rfl])]
      rfl
    · by_cases hterm : '\n' ∈ l ∨ '\r' ∈ l
      · obtain ⟨seg, t, rest, fs, hsplit, hsegn, hsegr, htv, heq, hfsne, hjoin⟩ :=
          refScan_with_term l [] [] hq hterm
        have htne : t ≠ [] := by
          rcases htv with rfl | rfl | ⟨rfl, _⟩ <;> simp
        have hrest : rest ≠ [] := by
          intro h0
          subst h0
          rw [hsplit] at hlast1 hlast2
          rcases htv with rfl | rfl | ⟨rfl, _⟩
          · rw [List.append_nil, getLast?_append_right seg ['\n'] (by simp)] at hlast1
            simp at hlast1
          · rw [List.append_nil, getLast?_append_right seg ['\r', '\n'] (by simp)] at hlast1
            simp at hlast1
          · rw [List.append_nil, getLast?_append_right seg ['\r'] (by simp)] at hlast2
            simp at hlast2
        have hnr : nextRecordRef l = (some fs, rest) := by
          rw [nextRecordRef, if_neg hl, heq]
          simp only
          rw [if_neg (show ¬(rest = [] ∧ (([] : List Char) ≠ [] ∨ fs ≠ [])) from
            fun hcon => hrest hcon.1)]
          rw [if_neg (show ¬(fs = [] ∧ rest = []) from fun hcon => hfsne hcon.1)]
        have hq2 : '\"' ∉ rest := by
          intro hm
          exact hq (by rw [hsplit]; exact List.mem_append_right _ hm)
        have hlastr : rest.getLast? = l.getLast? := by
          rw [hsplit, List.append_assoc, getLast?_append_right seg (t ++ rest)
            (by simp [htne]), getLast?_append_right t rest hrest]
        have hlen : rest.length ≤ n := by
          have hll : l.length = seg.length + t.length + rest.length := by
            rw [hsplit]; simp [List.length_append]; omega
          have ht1 : 1 ≤ t.length := by
            rcases htv with rfl | rfl | ⟨rfl, _⟩ <;> simp
          omega
        have hne2 : recordsRef rest ≠ [] := by
          obtain ⟨r2, rem2, h2⟩ := nextRecordRef_some_of_quote_free rest hrest hq2
          rw [recordsRef_cons h2]
          simp
        rw [recordsRef_cons hnr, joinRecs_cons_ne fs _ hne2,
          IH rest hlen hq2 (by rw [hlastr]; exact hlast1) (by rw [hlastr]; exact hlast2),
          hjoin]
        simp only [List.nil_append, joinC]
        rw [hsplit, List.append_assoc, normalizeNL_append_no_cr seg (t ++ rest) hsegr]
        have hstep : normalizeNL (t ++ rest) = '\n' :: normalizeNL rest := by
          rcases htv with rfl | rfl | ⟨rfl, hhd⟩
          · rw [List.cons_append, List.nil_append, normalizeNL_cons '\n' rest (by decide)]
          · rw [List.cons_append, List.cons_append, List.nil_append, normalizeNL_crlf]
          · rw [List.cons_append, List.nil_append, normalizeNL_cr rest hhd]
        rw [hstep]
      · push_neg at hterm
        obtain ⟨hrem0, hjoin0⟩ := refScan_no_term l [] [] hq hterm.1 hterm.2
        have hpush : (refScan l [] [] false).2.1 ≠ [] ∨ (refScan l [] [] false).1 ≠ [] := by
          by_contra hcon
          push_neg at hcon
          rw [hcon.1, hcon.2] at hjoin0
          simp [joinC] at hjoin0
          exact hl hjoin0
        have hnr : nextRecordRef l =
            (some ((refScan l [] [] false).1 ++ [(refScan l [] [] false).2.1]), []) := by
          rw [nextRecordRef, if_neg hl]
          rcases hsc : refScan l [] [] false with ⟨A, B, C⟩
          rw [hsc] at hrem0 hpush
          simp only at hrem0 hpush ⊢
          subst hrem0
          rw [if_pos (show ([] : List Char) = [] ∧ (B ≠ [] ∨ A ≠ []) from ⟨rfl, hpush⟩)]
          rw [if_neg (show ¬(A ++ [B] = [] ∧ ([] : List Char) = []) from
            fun hcon => by simp at hcon)]
        rw [recordsRef_cons hnr, recordsRef_nil (by rw [nextRecordRef, if_pos rfl])]
        have hjr : joinRecs [(refScan l [] [] false).1 ++ [(refScan l [] [] false).2.1]] =
            joinC ((refScan l [] [] false).1 ++ [(refScan l [] [] false).2.1]) := by
          rw [joinRecs]
        rw [hjr, hjoin0, normalizeNL_of_no_cr l hterm.2]
        simp [joinC]

/-! ### Quoted fields (spec §4.1) -/

theorem refScan_quoted (f : List Char) : ∀ (field : List Char) (fields : List (List Char)),
    '\"' ∉ f → refScan (f ++ ['\"']) field fields true = (fields, field ++ f, []) := by
  induction f with
  | nil =>
    intro field fields _
    rw [List.nil_append, refScan_quote_close [] field fields (by simp)]
    simp [refScan]
  | cons c f2 IH =>
    intro field fields hq
    have hc : c ≠ '\"' := fun hh => hq (by rw [hh]; exact List.mem_cons_self _ _)
    have hq2 : '\"' ∉ f2 := fun hm => hq (List.mem_cons_of_mem _ hm)
    rw [List.cons_append, refScan_in_quotes c _ field fields hc, IH (field ++ [c]) fields hq2]
    simp

/-- A whole quoted field (with no embedded quotes) scans to the single
field between the quotes: separators and terminators inside it are
literal. -/
theorem records_quoted_field (f : List Char) (hne : f ≠ []) (hq : '\"' ∉ f) :
    records ('\"' :: (f ++ ['\"'])) = [[f]] := by
  rw [records_eq_ref]
  have h2 : refScan ('\"' :: (f ++ ['\"'])) [] [] false = ([], f, []) := by
    rw [refScan_open_quote, refScan_quoted f [] [] hq]
    simp
  have h1 : nextRecordRef ('\"' :: (f ++ ['\"'])) = (some [f], []) := by
    rw [nextRecordRef, if_neg (by simp), h2]
    simp [hne]
  rw [recordsRef_cons h1, recordsRef_nil (by rw [nextRecordRef, if_pos rfl])]

/-! ## Typed-Value Encoder (`infer_type`, main.rs 110–125)

Machine-integer and floating-point parsing/printing are modelled
exactly:
* `i64::from_str` becomes `i64FromStr` — optional sign, decimal digits,
  the `i64` range check done on the exact value;
* `f64::from_str` / `f64::to_string` become `rustF64FromStr` /
  `formatF64` over the exact value `digits × 10^scale` (plus
  infinities and NaN, which Rust's parser also accepts).  This model
  agrees with `f64` on every decimal literal the binary format
  represents exactly (in particular on all inputs appearing in the
  spec); it does not round to 53-bit precision, which is the one
  deliberate abstraction from IEEE-754 in this file. -/

def digitsVal : List Char → Nat → Option Nat
  | [], acc => some acc
  | c :: rest, acc => if c.isDigit then digitsVal rest (acc * 10 + (c.toNat - 48)) else none

def i64FromDigits (neg : Bool) (ds : List Char) : Option Int :=
  if ds = [] then none
  else match digitsVal ds 0 with
    | none => none
    | some n =>
      if neg then (if n ≤ 2 ^ 63 then some (-(n : Int)) else none)
      else if n ≤ 2 ^ 63 - 1 then some (n : Int) else none

def i64FromStr (s : List Char) : Option Int :=
  match s with
  | '+' :: r => i64FromDigits false r
  | '-' :: r => i64FromDigits true r
  | r => i64FromDigits false r

/-- `i64::to_string`: canonical decimal form. -/
def intToStr (i : Int) : List Char :=
  if i < 0 then '-' :: Nat.toDigits 10 i.natAbs else Nat.toDigits 10 i.natAbs

/-- The exact value of a parsed `f64` literal (see section comment). -/
inductive FVal where
  | finite (neg : Bool) (digits : Nat) (scale : Int)
  | inf
  | neginf
  | nan

def splitAtExpMarker : List Char → List Char × Option (List Char)
  | [] => ([], none)
  | c :: rest =>
    if c = 'e' ∨ c = 'E' then ([], some rest)
    else match splitAtExpMarker rest with
      | (m, e) => (c :: m, e)

def parseExp (l : List Char) : Option Int :=
  match l with
  | '+' :: r => if r = [] then none else (digitsVal r 0).map (fun n => (n : Int))
  | '-' :: r => if r = [] then none else (digitsVal r 0).map (fun n => -(n : Int))
  | r => if r = [] then none else (digitsVal r 0).map (fun n => (n : Int))

def parseMantissa (l : List Char) : Option (Nat × Int) :=
  match l.dropWhile Char.isDigit with
  | [] =>
    if l.takeWhile Char.isDigit = [] then none
    else (digitsVal (l.takeWhile Char.isDigit) 0).map (fun n => (n, (0 : Int)))
  | '.' :: fp =>
    if fp.all Char.isDigit ∧ (l.takeWhile Char.isDigit ≠ [] ∨ fp ≠ []) then
      (digitsVal (l.takeWhile Char.isDigit ++ fp) 0).map
        (fun n => (n, -(fp.length : Int)))
    else none
  | _ => none

def rustF64Body (neg : Bool) (r : List Char) : Option FVal :=
  if r.map Char.toLower = "inf".data ∨ r.map Char.toLower = "infinity".data then
    some (if neg then FVal.neginf else FVal.inf)
  else if r.map Char.toLower = "nan".data then some FVal.nan
  else
    match splitAtExpMarker r with
    | (m, none) => (parseMantissa m).map (fun p => FVal.finite neg p.1 p.2)
    | (m, some e) =>
      match parseMantissa m, parseExp e with
      | some p, some ex => some (FVal.finite neg p.1 (p.2 + ex))
      | _, _ => none

def rustF64FromStr (s : List Char) : Option FVal :=
  match s with
  | '+' :: r => rustF64Body false r
  | '-' :: r => rustF64Body true r
  | r => rustF64Body false r

def stripZeros : Nat → Nat → Int → Nat × Int
  | 0, d, e => (d, e)
  | fuel + 1, d, e => if d ≠ 0 ∧ d % 10 = 0 then stripZeros fuel (d / 10) (e + 1) else (d, e)

def posDecimal (d : Nat) (e : Int) : List Char :=
  let ds := Nat.toDigits 10 d
  if 0 ≤ e then ds ++ List.replicate e.toNat '0'
  else
    if (-e).toNat < ds.length then
      ds.take (ds.length - (-e).toNat) ++ '.' :: ds.drop (ds.length - (-e).toNat)
    else '0' :: '.' :: (List.replicate ((-e).toNat - ds.length) '0' ++ ds)

/-- `f64`'s `Display`: positional decimal, shortest form (no exponent
notation, trailing fraction zeros removed, `-0` kept signed). -/
def formatF64 : FVal → List Char
  | FVal.inf => "inf".data
  | FVal.neginf => "-inf".data
  | FVal.nan => "NaN".data
  | FVal.finite neg d e =>
    match stripZeros d d e with
    | (d2, e2) =>
      if neg then '-' :: (if d2 = 0 then "0".data else posDecimal d2 e2)
      else if d2 = 0 then "0".data else posDecimal d2 e2

/-- `str::to_lowercase` (ASCII range; the source only compares against
`"true"`/`"false"`). -/
def toLowerStr (s : List Char) : List Char := s.map Char.toLower

def hex4 (n : Nat) : List Char :=
  [Nat.digitChar (n / 4096 % 16), Nat.digitChar (n / 256 % 16),
   Nat.digitChar (n / 16 % 16), Nat.digitChar (n % 16)]

/-- `json_escape` (main.rs 128–144). -/
def json_escape : List Char → List Char
  | [] => []
  | c :: rest =>
    (if c = '\\' then ['\\', '\\']
     else if c = '\"' then ['\\', '\"']
     else if c = '\n' then ['\\', 'n']
     else if c = '\r' then ['\\', 'r']
     else if c = '\t' then ['\\', 't']
     else if c < ' ' then '\\' :: 'u' :: hex4 c.toNat
     else [c]) ++ json_escape rest

/-- `infer_type` (main.rs 110–125). -/
def infer_type (s : List Char) : List Char :=
  if s = [] then "null".data
  else
    match i64FromStr s with
    | some i => intToStr i
    | none =>
      match rustF64FromStr s with
      | some v => formatF64 v
      | none =>
        if toLowerStr s = "true".data then "true".data
        else if toLowerStr s = "false".data then "false".data
        else '\"' :: (json_escape s ++ ['\"'])

/-! ## Record Stream (`CsvIter`, main.rs 238–266) -/

/-- `char::is_whitespace` (the Unicode `White_Space` property), used by
`str::trim`. -/
def rustIsWhitespace (c : Char) : Bool :=
  decide (c.toNat = 9 ∨ c.toNat = 10 ∨ c.toNat = 11 ∨ c.toNat = 12 ∨ c.toNat = 13 ∨
    c.toNat = 32 ∨ c.toNat = 133 ∨ c.toNat = 160 ∨ c.toNat = 5760 ∨
    (8192 ≤ c.toNat ∧ c.toNat ≤ 8202) ∨ c.toNat = 8232 ∨ c.toNat = 8233 ∨
    c.toNat = 8239 ∨ c.toNat = 8287 ∨ c.toNat = 12288)

/-- `str::trim`: remove leading and trailing whitespace. -/
def rustTrim (s : List Char) : List Char :=
  ((s.dropWhile rustIsWhitespace).reverse.dropWhile rustIsWhitespace).reverse

/-- The loop body of `CsvIter::next` (main.rs 259–264): positional join
of the header names with the record's fields. -/
def joinRowAux (rec : List (List Char)) : Nat → List (List Char) → List (List Char × List Char)
  | _, [] => []
  | i, name :: rest =>
    (name, match rec[i]? with
           | some v => rustTrim v
           | none => []) :: joinRowAux rec (i + 1) rest

def joinRow (headers rec : List (List Char)) : List (List Char × List Char) :=
  joinRowAux rec 0 headers

/-- The state of a `CsvIter`: the reader (buffer and cursor) plus the
header record read by `from_reader`. -/
structure CsvIterState where
  buf : List Char
  idx : Nat
  headers : List (List Char)

/-- `CsvIter::next` (main.rs 254–265). -/
def csvIterNext (s : CsvIterState) : Option (List (List Char × List Char)) × CsvIterState :=
  match nextRecord s.buf s.idx with
  | (none, i) => (none, ⟨s.buf, i, s.headers⟩)
  | (some rec, i) =>
    if rec = [] then (none, ⟨s.buf, i, s.headers⟩)
    else (some (joinRow s.headers rec), ⟨s.buf, i, s.headers⟩)

/-! ## Document Encoder and Batch Assembler (main.rs 269–284, 372–402) -/

/-- `dict_to_json`'s field loop: comma before every entry but the
first. -/
def dictEntries : List (List Char × List Char) → Bool → List Char
  | [], _ => []
  | kv :: rest, first =>
    (if first then [] else [',']) ++
      ('\"' :: (json_escape kv.1 ++ '\"' :: ':' :: infer_type kv.2)) ++ dictEntries rest false

/-- `dict_to_json` (main.rs 269–284). -/
def dict_to_json (row : List (List Char × List Char)) : List Char :=
  '{' :: (dictEntries row true ++ ['}'])

/-- The action-metadata line pushed for every row (main.rs 376–379). -/
def actionLine (indexName : List Char) : List Char :=
  "\x7b\"index\":\x7b\"_index\":\"".data ++ (indexName ++ "\"\x7d\x7d".data)

def joinNL : List (List Char) → List Char
  | [] => []
  | [x] => x
  | x :: y :: rest => x ++ '\n' :: joinNL (y :: rest)

/-- `batch.join("\n")` followed by `body.push('\n')` (main.rs 383–384,
395–396): the wire body of one payload. -/
def payloadBody (batch : List (List Char)) : List Char := joinNL batch ++ ['\n']

/-- The upload loop of `main` (main.rs 372–402), with the batch, the
payloads sent so far, and `total_docs` as explicit state.  Each payload
is recorded as the batch (list of ndjson lines) it was built from. -/
def bulkGo (indexName : List Char) (B : Nat) : List (List (List Char × List Char)) →
    List (List Char) → List (List (List Char)) → Nat → List (List (List Char)) × Nat
  | [], batch, payloads, total =>
    if batch = [] then (payloads, total)
    else (payloads ++ [batch], total + batch.length / 2)
  | row :: rows, batch, payloads, total =>
    let batch2 := batch ++ [actionLine indexName, dict_to_json row]
    if B ≤ batch2.length / 2 then
      bulkGo indexName B rows [] (payloads ++ [batch2]) (total + batch2.length / 2)
    else bulkGo indexName B rows batch2 payloads total

/-- The whole upload phase of `main`: returns the payloads sent (in
order) and the final `total_docs`. -/
def mainLoop (indexName : List Char) (B : Nat)
    (rows : List (List (List Char × List Char))) : List (List (List Char)) × Nat :=
  bulkGo indexName B rows [] [] 0

/-- The driver around the upload phase (main.rs 363–408): `es_ping`'s
result gates everything; on a failed probe `main` returns the
connectivity error before the CSV is opened and before any payload is
built.  The probe itself is I/O (`TcpStream`), so its outcome is a
parameter. -/
def runImport (pingOk : Bool) (host : List Char) (indexName : List Char) (B : Nat)
    (rows : List (List (List Char × List Char))) :
    Except (List Char) (List (List (List Char)) × Nat) :=
  if pingOk then Except.ok (mainLoop indexName B rows)
  else Except.error ("Cannot connect to ES at ".data ++ host)

/-! ## Upload Target (`parse_http_target`, main.rs 81–107) -/

structure HttpTarget where
  host : List Char
  port : Nat
  base_path : List Char
deriving DecidableEq

def u16FromDigits (ds : List Char) : Option Nat :=
  if ds = [] then none
  else match digitsVal ds 0 with
    | none => none
    | some n => if n ≤ 65535 then some n else none

/-- `u16::from_str`: optional `+`, decimal digits, `u16` range check. -/
def u16FromStr (s : List Char) : Option Nat :=
  match s with
  | '+' :: r => u16FromDigits r
  | r => u16FromDigits r

/-- `parse_http_target` (main.rs 81–107): `splitn(2, '/')` keeps the
host-port part before the first `/` and everything from that `/` on
(prefixed back with `/`) as the base path; `split_once(':')` splits at
the first colon. -/
def parse_http_target (url : List Char) : Except (List Char) HttpTarget :=
  if ("http://".data).isPrefixOf url = false then Except.error "Only http:// supported".data
  else
    if (url.drop 7).takeWhile (fun c => c != '/') |>.any (fun c => c == ':') then
      match u16FromStr ((((url.drop 7).takeWhile (fun c => c != '/')).dropWhile
          (fun c => c != ':')).drop 1) with
      | none => Except.error "Invalid port".data
      | some p =>
        Except.ok ⟨((url.drop 7).takeWhile (fun c => c != '/')).takeWhile (fun c => c != ':'),
          p, (url.drop 7).dropWhile (fun c => c != '/')⟩
    else Except.ok ⟨(url.drop 7).takeWhile (fun c => c != '/'), 9200,
      (url.drop 7).dropWhile (fun c => c != '/')⟩

/-- `format!("{}/_bulk", target.base_path)` (main.rs 371). -/
def bulkPath (t : HttpTarget) : List Char := t.base_path ++ "/_bulk".data

/-! ## Batch invariants (main.rs 372–402) -/

theorem mem_of_getLast {α : Type} : ∀ {l : List α} {a : α}, l.getLast? = some a → a ∈ l := by
  intro l
  induction l with
  | nil => intro a h; simp at h
  | cons b l IH =>
    intro a h
    cases l with
    | nil =>
      simp only [List.getLast?_singleton, Option.some.injEq] at h
      rw [← h]
      exact List.mem_cons_self _ _
    | cons c l2 =>
      rw [List.getLast?_cons_cons] at h
      exact List.mem_cons_of_mem _ (IH h)

theorem bulkGo_spec (indexName : List Char) (B : Nat) (hB : 1 ≤ B) :
    ∀ (rows : List (List (List Char × List Char))) (batch : List (List Char))
      (payloads : List (List (List Char))) (total : Nat),
      batch.length % 2 = 0 → batch.length / 2 < B →
      (∀ p ∈ payloads, p.length = 2 * B) →
      (∀ p ∈ (bulkGo indexName B rows batch payloads total).1.dropLast, p.length = 2 * B) ∧
      (∀ p, (bulkGo indexName B rows batch payloads total).1.getLast? = some p →
        1 ≤ p.length / 2 ∧ p.length / 2 ≤ B) := by
  intro rows
  induction rows with
  | nil =>
    intro batch payloads total hev hlt hfull
    by_cases hb : batch = []
    · simp only [bulkGo, if_pos hb]
      constructor
      · intro p hp
        exact hfull p ((List.dropLast_sublist payloads).subset hp)
      · intro p hp
        have hlen := hfull p (mem_of_getLast hp)
        rw [hlen]
        omega
    · simp only [bulkGo, if_neg hb]
      constructor
      · intro p hp
        rw [List.dropLast_concat] at hp
        exact hfull p hp
      · intro p hp
        rw [List.getLast?_concat] at hp
        have hpb : batch = p := Option.some.inj hp
        subst hpb
        have hpos : 0 < batch.length := List.length_pos.mpr hb
        omega
  | cons row rows IH =>
    intro batch payloads total hev hlt hfull
    simp only [bulkGo]
    have hlen2 : (batch ++ [actionLine indexName, dict_to_json row]).length = batch.length + 2 := by
      simp
    by_cases hcond : B ≤ (batch ++ [actionLine indexName, dict_to_json row]).length / 2
    · rw [if_pos hcond]
      refine IH [] _ _ (by simp) (by simp only [List.length_nil]; omega) ?_
      intro p hp
      rcases List.mem_append.mp hp with hp | hp
      · exact hfull p hp
      · have hpb : p = batch ++ [actionLine indexName, dict_to_json row] := by
          simpa using hp
        rw [hpb, hlen2]
        omega
    · rw [if_neg hcond]
      exact IH _ _ _ (by omega) (by omega) hfull

/-- Claim C1 (amended: batch size at least 1): with batch size `B ≥ 1`,
every payload sent except the final one holds exactly `B` documents
(`2 B` ndjson lines), the final payload holds between `1` and `B`
documents; with batch size 2 and 5 input documents exactly three
payloads of 4, 4 and 2 lines (2, 2, 1 documents) are sent and the
reported count is 5; an empty input sends no payload and reports 0. -/
theorem claim1_batch_invariant (indexName : List Char) (B : Nat) (hB : 1 ≤ B)
    (rows : List (List (List Char × List Char))) :
    (∀ p ∈ (mainLoop indexName B rows).1.dropLast, p.length = 2 * B) ∧
    (∀ p, (mainLoop indexName B rows).1.getLast? = some p →
      1 ≤ p.length / 2 ∧ p.length / 2 ≤ B) ∧
    (∀ r1 r2 r3 r4 r5 : List (List Char × List Char),
      ((mainLoop indexName 2 [r1, r2, r3, r4, r5]).1).map List.length = [4, 4, 2] ∧
      (mainLoop indexName 2 [r1, r2, r3, r4, r5]).2 = 5) ∧
    mainLoop indexName B [] = ([], 0) := by
  obtain ⟨h1, h2⟩ := bulkGo_spec indexName B hB rows [] [] 0 (by simp)
    (by simp only [List.length_nil]; omega) (by simp)
  refine ⟨h1, h2, ?_, rfl⟩
  intro r1 r2 r3 r4 r5
  simp [mainLoop, bulkGo]

/-- Witness for `claim1_batch_invariant` at `B = 2` and three concrete
rows. -/
theorem claim1_batch_invariant_witness :
    1 ≤ 2 ∧
    (∀ p, (mainLoop "i".data 2 [[], [], []]).1.getLast? = some p →
      1 ≤ p.length / 2 ∧ p.length / 2 ≤ 2) :=
  ⟨by decide, (claim1_batch_invariant "i".data 2 (by decide) [[], [], []]).2.1⟩

/-- Claim C1 counterexample: as stated (for every configured batch size,
so also `B = 0`) the claim is false — with batch size 0 and one input
document the only (hence final) payload holds one document, not between
1 and 0. -/
theorem claim1_counterexample :
    ¬ (∀ p, ((mainLoop "i".data 0 [[]]).1).getLast? = some p →
        1 ≤ p.length / 2 ∧ p.length / 2 ≤ 0) := by
  intro hcl
  have h := hcl [actionLine "i".data, "\x7b\x7d".data] (by decide)
  exact absurd h.2 (by decide)

/-! ## Tokenizer claims -/

/-- Claim C3 (amended: the input must not end with a line terminator):
for every quote-free input that does not end in LF or CR, rejoining the
tokenized records (fields with commas, records with newlines)
reproduces the original text with CR LF and lone CR normalized to
LF. -/
theorem claim3_roundtrip (buf : List Char) (hq : '\"' ∉ buf)
    (h1 : buf.getLast? ≠ some '\n') (h2 : buf.getLast? ≠ some '\r') :
    joinRecs (records buf) = normalizeNL buf := by
  rw [records_eq_ref]
  exact recordsRef_roundtrip_aux buf.length buf (Nat.le_refl _) hq h1 h2

/-- Witness for `claim3_roundtrip` on `"a,b\nc"` (two records, an
embedded comma). -/
theorem claim3_roundtrip_witness :
    ('\"' ∉ "a,b\nc".data ∧ "a,b\nc".data.getLast? ≠ some '\n' ∧
      "a,b\nc".data.getLast? ≠ some '\r') ∧
    joinRecs (records "a,b\nc".data) = normalizeNL "a,b\nc".data :=
  ⟨⟨by decide, by decide, by decide⟩,
    claim3_roundtrip "a,b\nc".data (by decide) (by decide) (by decide)⟩

/-- Claim C3 counterexample: the claim as stated fails on the
quote-free input `"a\n"`.  The tokenizer appends a spurious empty field
when the terminator ends the buffer (main.rs 225 fires after the break
at 198–203), so the single record is `["a", ""]` and rejoining gives
`"a,"` — which matches neither the normalized original `"a\n"` nor the
original with the trailing terminator dropped, `"a"`. -/
theorem claim3_counterexample :
    records "a\n".data = [[['a'], []]] ∧
    joinRecs (records "a\n".data) = "a,".data ∧
    joinRecs (records "a\n".data) ≠ normalizeNL "a\n".data ∧
    joinRecs (records "a\n".data) ≠ normalizeNL "a".data ∧
    '\"' ∉ "a\n".data := by
  have h : records "a\n".data = [[['a'], []]] := by
    rw [records_eq_ref,
      recordsRef_cons (show nextRecordRef "a\n".data = (some [['a'], []], []) by decide),
      recordsRef_nil (by decide)]
  refine ⟨h, ?_, ?_, ?_, by decide⟩ <;> rw [h] <;> decide

/-- Claim C4: a quoted field may contain separators and line
terminators literally (any nonempty quote-free content between quotes
scans to that content as a single field), and the doubled double-quote
in `"a,b""c"` denotes one literal quote: the input tokenizes to the
single field `a,b"c`. -/
theorem claim4_quoted_field :
    (∀ f : List Char, f ≠ [] → '\"' ∉ f → records ('\"' :: (f ++ ['\"'])) = [[f]]) ∧
    records "\"a,b\"\"c\"".data = [["a,b\"c".data]] := by
  constructor
  · exact records_quoted_field
  · rw [records_eq_ref,
      recordsRef_cons
        (show nextRecordRef "\"a,b\"\"c\"".data = (some ["a,b\"c".data], []) by decide),
      recordsRef_nil (by decide)]

/-- Witness for `claim4_quoted_field` on a field containing a comma and
a line terminator. -/
theorem claim4_quoted_field_witness :
    ("x,y\nz".data ≠ [] ∧ '\"' ∉ "x,y\nz".data) ∧
    records ('\"' :: ("x,y\nz".data ++ ['\"'])) = [["x,y\nz".data]] :=
  ⟨⟨by decide, by decide⟩, claim4_quoted_field.1 "x,y\nz".data (by decide) (by decide)⟩

/-- Claim C6 (amended): `CsvIter::next` ends the stream when handed a
record with no fields, but the tokenizer never produces one — a
terminator with nothing before it yields a record of one empty field
when more input follows (`"\na"`), while at end of input an extra empty
field is appended (`"\n"` gives a record of two empty fields, and
trailing-blank-line input `"a\n\n"` ends with such a record, the stream
then ending by exhaustion, not through the empty-record check). -/
theorem claim6_empty_record :
    (∀ (s : CsvIterState) (i : Nat), nextRecord s.buf s.idx = (some [], i) →
      (csvIterNext s).1 = none) ∧
    (∀ (buf : List Char) (idx : Nat) (r : List (List Char)) (j : Nat),
      nextRecord buf idx = (some r, j) → r ≠ []) ∧
    records "\na".data = [[[]], [['a']]] ∧
    records "\n".data = [[[], []]] ∧
    records "a\n\n".data = [[['a']], [[], []]] := by
  refine ⟨?_, fun buf idx r j h => nextRecord_ne_empty h, ?_, ?_, ?_⟩
  · intro s i hdead
    rw [csvIterNext, hdead]
    rfl
  · rw [records_eq_ref,
      recordsRef_cons (show nextRecordRef "\na".data = (some [[]], "a".data) by decide),
      recordsRef_cons (show nextRecordRef "a".data = (some [['a']], []) by decide),
      recordsRef_nil (by decide)]
  · rw [records_eq_ref,
      recordsRef_cons (show nextRecordRef "\n".data = (some [[], []], []) by decide),
      recordsRef_nil (by decide)]
  · rw [records_eq_ref,
      recordsRef_cons (show nextRecordRef "a\n\n".data = (some [['a']], "\n".data) by decide),
      recordsRef_cons (show nextRecordRef "\n".data = (some [[], []], []) by decide),
      recordsRef_nil (by decide)]

/-- Witness for `claim6_empty_record`: the tokenizer yields a nonempty
record on a concrete input. -/
theorem claim6_empty_record_witness :
    nextRecord "x".data 0 = (some [['x']], 1) ∧ ([['x']] : List (List Char)) ≠ [] :=
  ⟨by simp [nextRecord, scanRecord],
    claim6_empty_record.2.1 "x".data 0 [['x']] 1 (by simp [nextRecord, scanRecord])⟩

/-- Claim C6 counterexample: as stated the claim is false — a
terminator with nothing before it at end of input (`"\n"`) yields a
record of two empty fields, not one. -/
theorem claim6_counterexample :
    records "\n".data = [[[], []]] ∧ records "\n".data ≠ [[[]]] := by
  have h : records "\n".data = [[[], []]] := by
    rw [records_eq_ref,
      recordsRef_cons (show nextRecordRef "\n".data = (some [[], []], []) by decide),
      recordsRef_nil (by decide)]
  exact ⟨h, by rw [h]; decide⟩

/-- Claim C10: whenever `next_record` yields a record the cursor
strictly advances (and stays within the buffer), and hence the record
stream of any finite buffer is finite — `recordsFrom` is total and
yields at most `buf.length - idx` records. -/
theorem claim10_termination :
    (∀ (buf : List Char) (idx : Nat) (r : List (List Char)) (j : Nat),
      nextRecord buf idx = (some r, j) → idx < j ∧ j ≤ buf.length) ∧
    (∀ (buf : List Char) (idx : Nat), (recordsFrom buf idx).length ≤ buf.length - idx) := by
  constructor
  · exact fun buf idx r j h => nextRecord_progress h
  · have main : ∀ (n : Nat) (buf : List Char) (idx : Nat), buf.length - idx ≤ n →
        (recordsFrom buf idx).length ≤ buf.length - idx := by
      intro n
      induction n with
      | zero =>
        intro buf idx hn
        rw [recordsFrom_nil (by rw [nextRecord, if_pos (by omega)])]
        simp
      | succ n IH =>
        intro buf idx hn
        rcases h : nextRecord buf idx with ⟨o, j⟩
        cases o with
        | none => rw [recordsFrom_nil (by rw [h])]; simp
        | some r =>
          obtain ⟨hij, hjl⟩ := nextRecord_progress h
          rw [recordsFrom_cons h]
          have := IH buf j (by omega)
          simp only [List.length_cons]
          omega
    exact fun buf idx => main (buf.length - idx) buf idx (Nat.le_refl _)

/-- Witness for `claim10_termination`: one concrete `next_record` call
advances the cursor from 0 to 2 on `"a\nb"`. -/
theorem claim10_termination_witness :
    nextRecord "a\nb".data 0 = (some [['a']], 2) ∧ (0 < 2 ∧ 2 ≤ "a\nb".data.length) :=
  ⟨by simp [nextRecord, scanRecord],
    claim10_termination.1 "a\nb".data 0 [['a']] 2 (by simp [nextRecord, scanRecord])⟩

/-! ## Typed-Value Encoder claims -/

/-- Claim C2: `infer_type` is total (it is a Lean function) and tries,
in order: empty → `null`; `i64` parse → canonical integer literal;
`f64` parse → decimal literal; case-insensitive `true`/`false` →
boolean literal; otherwise a quoted, escaped JSON string.  Concretely
`""`→`null`, `"42"`→`42`, `"-3.5"`→`-3.5`, `"TRUE"`→`true`,
`"hello"`→`"hello"`. -/
theorem claim2_infer_type :
    infer_type [] = "null".data ∧
    (∀ (s : List Char) (n : Int), s ≠ [] → i64FromStr s = some n →
      infer_type s = intToStr n) ∧
    (∀ (s : List Char) (v : FVal), s ≠ [] → i64FromStr s = none → rustF64FromStr s = some v →
      infer_type s = formatF64 v) ∧
    (∀ s : List Char, s ≠ [] → i64FromStr s = none → rustF64FromStr s = none →
      toLowerStr s = "true".data → infer_type s = "true".data) ∧
    (∀ s : List Char, s ≠ [] → i64FromStr s = none → rustF64FromStr s = none →
      toLowerStr s = "false".data → infer_type s = "false".data) ∧
    (∀ s : List Char, s ≠ [] → i64FromStr s = none → rustF64FromStr s = none →
      toLowerStr s ≠ "true".data → toLowerStr s ≠ "false".data →
      infer_type s = '\"' :: (json_escape s ++ ['\"'])) ∧
    (infer_type "42".data = "42".data ∧ infer_type "-3.5".data = "-3.5".data ∧
      infer_type "TRUE".data = "true".data ∧
      infer_type "hello".data = "\"hello\"".data) := by
  refine ⟨by decide, ?_, ?_, ?_, ?_, ?_, by decide, by decide, by decide, by decide⟩
  · intro s n hne h1
    simp [infer_type, hne, h1]
  · intro s v hne h1 h2
    simp [infer_type, hne, h1, h2]
  · intro s hne h1 h2 h4
    have hnf : toLowerStr s ≠ "false".data := by rw [h4]; decide
    simp [infer_type, hne, h1, h2, h4]
  · intro s hne h1 h2 h4
    have hnt : toLowerStr s ≠ "true".data := by rw [h4]; decide
    simp [infer_type, hne, h1, h2, h4, hnt]
  · intro s hne h1 h2 h4 h5
    simp [infer_type, hne, h1, h2, h4, h5]

/-- Witness for `claim2_infer_type` on the integer branch at `"7"`. -/
theorem claim2_infer_type_witness :
    ("7".data ≠ [] ∧ i64FromStr "7".data = some 7) ∧ infer_type "7".data = intToStr 7 :=
  ⟨⟨by decide, by decide⟩, claim2_infer_type.2.1 "7".data 7 (by decide) (by decide)⟩

/-! ## Record Stream claims -/

theorem joinRowAux_length (rec : List (List Char)) :
    ∀ (hs : List (List Char)) (i : Nat), (joinRowAux rec i hs).length = hs.length := by
  intro hs
  induction hs with
  | nil => intro i; rfl
  | cons name rest IH => intro i; simp [joinRowAux, IH]

theorem joinRowAux_get (rec : List (List Char)) :
    ∀ (hs : List (List Char)) (i k : Nat),
      (joinRowAux rec i hs)[k]? = hs[k]?.map (fun name =>
        (name, match rec[i + k]? with | some v => rustTrim v | none => [])) := by
  intro hs
  induction hs with
  | nil => intro i k; simp [joinRowAux]
  | cons name rest IH =>
    intro i k
    cases k with
    | zero => simp [joinRowAux]
    | succ k2 =>
      have hidx : i + 1 + k2 = i + (k2 + 1) := by omega
      simp only [joinRowAux, List.getElem?_cons_succ, IH (i + 1) k2, hidx]

/-- Claim C5: each data record is joined positionally with the header:
the row has exactly one entry per header column; a column beyond the
record's length gets the empty string; a column inside the record gets
the record's field trimmed of leading/trailing whitespace; and this is
exactly the row `CsvIter::next` hands to the encoder. -/
theorem claim5_positional_join (headers rec : List (List Char)) :
    (joinRow headers rec).length = headers.length ∧
    (∀ (k : Nat) (name : List Char), headers[k]? = some name →
      (rec.length ≤ k → (joinRow headers rec)[k]? = some (name, [])) ∧
      (∀ raw : List Char, rec[k]? = some raw →
        (joinRow headers rec)[k]? = some (name, rustTrim raw))) ∧
    (∀ (s : CsvIterState) (rec2 : List (List Char)) (i : Nat),
      nextRecord s.buf s.idx = (some rec2, i) → rec2 ≠ [] →
      (csvIterNext s).1 = some (joinRow s.headers rec2)) := by
  refine ⟨joinRowAux_length rec headers 0, ?_, ?_⟩
  · intro k name hk
    constructor
    · intro hlen
      rw [joinRow, joinRowAux_get rec headers 0 k, hk]
      simp [List.getElem?_eq_none hlen]
    · intro raw hraw
      rw [joinRow, joinRowAux_get rec headers 0 k, hk]
      simp [hraw]
  · intro s rec2 i h hne
    rw [csvIterNext, h]
    simp [hne]

/-- Witness for `claim5_positional_join`: a two-column header joined
with a one-field record — present column trimmed, missing column
empty. -/
theorem claim5_positional_join_witness :
    (["a".data, "b".data][0]? = some "a".data ∧ [" x ".data][0]? = some " x ".data ∧
      ["a".data, "b".data][1]? = some "b".data ∧ [" x ".data].length ≤ 1) ∧
    (joinRow ["a".data, "b".data] [" x ".data])[0]? = some ("a".data, rustTrim " x ".data) ∧
    (joinRow ["a".data, "b".data] [" x ".data])[1]? = some ("b".data, []) :=
  ⟨⟨by decide, by decide, by decide, by decide⟩,
    ((claim5_positional_join ["a".data, "b".data] [" x ".data]).2.1 0 "a".data (by decide)).2
      " x ".data (by decide),
    ((claim5_positional_join ["a".data, "b".data] [" x ".data]).2.1 1 "b".data (by decide)).1
      (by decide)⟩

/-! ## JSON string escaping (`json_escape`) -/

theorem hex4_small (n : Nat) (h : n < 256) :
    hex4 n = ['0', '0', Nat.digitChar (n / 16 % 16), Nat.digitChar (n % 16)] := by
  unfold hex4
  rw [Nat.div_eq_of_lt (by omega : n < 4096), Nat.div_eq_of_lt (by omega : n < 256)]
  rfl

/-- Claim C7: `json_escape` gives backslash, double-quote, LF, CR and
TAB their standard two-character escapes; every other character below
the space code point (0x20) becomes `\u00XX` with four lowercase hex
digits; every other character passes through unescaped. -/
theorem claim7_json_escape :
    (∀ s, json_escape ('\\' :: s) = '\\' :: '\\' :: json_escape s) ∧
    (∀ s, json_escape ('\"' :: s) = '\\' :: '\"' :: json_escape s) ∧
    (∀ s, json_escape ('\n' :: s) = '\\' :: 'n' :: json_escape s) ∧
    (∀ s, json_escape ('\r' :: s) = '\\' :: 'r' :: json_escape s) ∧
    (∀ s, json_escape ('\t' :: s) = '\\' :: 't' :: json_escape s) ∧
    (∀ (c : Char) (s : List Char), c.toNat < 32 → c ≠ '\n' → c ≠ '\r' → c ≠ '\t' →
      json_escape (c :: s) =
        '\\' :: 'u' :: '0' :: '0' :: Nat.digitChar (c.toNat / 16 % 16) ::
          Nat.digitChar (c.toNat % 16) :: json_escape s) ∧
    (∀ (c : Char) (s : List Char), 32 ≤ c.toNat → c ≠ '\\' → c ≠ '\"' →
      json_escape (c :: s) = c :: json_escape s) := by
  refine ⟨fun s => rfl, fun s => rfl, fun s => rfl, fun s => rfl, fun s => rfl, ?_, ?_⟩
  · intro c s h hn hr ht
    have h1 : c ≠ '\\' := by intro hh; rw [hh] at h; exact absurd h (by decide)
    have h2 : c ≠ '\"' := by intro hh; rw [hh] at h; exact absurd h (by decide)
    have h5 : c < ' ' := h
    simp only [json_escape, if_neg h1, if_neg h2, if_neg hn, if_neg hr, if_neg ht, if_pos h5]
    rw [hex4_small c.toNat (by omega)]
    rfl
  · intro c s h h1 h2
    have hn : c ≠ '\n' := by intro hh; rw [hh] at h; exact absurd h (by decide)
    have hr : c ≠ '\r' := by intro hh; rw [hh] at h; exact absurd h (by decide)
    have ht : c ≠ '\t' := by intro hh; rw [hh] at h; exact absurd h (by decide)
    have h5 : ¬ (c < ' ') := by
      intro hh
      have hx : c.toNat < 32 := hh
      omega
    simp only [json_escape, if_neg h1, if_neg h2, if_neg hn, if_neg hr, if_neg ht, if_neg h5]
    rfl

/-- Witness for `claim7_json_escape`: the control character 0x01 is
escaped as `\u0001`, and `'A'` passes through. -/
theorem claim7_json_escape_witness :
    (('\x01' : Char).toNat < 32 ∧ (32 ≤ ('A' : Char).toNat)) ∧
    json_escape ['\x01'] =
      '\\' :: 'u' :: '0' :: '0' :: Nat.digitChar 0 :: Nat.digitChar 1 :: json_escape [] ∧
    json_escape ('A' :: []) = 'A' :: json_escape [] :=
  ⟨⟨by decide, by decide⟩,
    claim7_json_escape.2.2.2.2.2.1 '\x01' [] (by decide) (by decide) (by decide) (by decide),
    claim7_json_escape.2.2.2.2.2.2 'A' [] (by decide) (by decide) (by decide)⟩

/-! ## Pipeline Driver claim -/

/-- Claim C8: if the liveness probe fails (`es_ping` returns `false`,
which is also what every I/O error inside it produces), the run aborts
with the connectivity error and no bulk payload is constructed or sent
— the result is never a payload list. -/
theorem claim8_probe_gate (host indexName : List Char) (B : Nat)
    (rows : List (List (List Char × List Char))) (pingOk : Bool) (h : pingOk = false) :
    runImport pingOk host indexName B rows =
      Except.error ("Cannot connect to ES at ".data ++ host) ∧
    (∀ (payloads : List (List (List Char))) (total : Nat),
      runImport pingOk host indexName B rows ≠ Except.ok (payloads, total)) := by
  subst h
  refine ⟨rfl, ?_⟩
  intro payloads total hcon
  simp [runImport] at hcon

/-- Witness for `claim8_probe_gate`. -/
theorem claim8_probe_gate_witness :
    (false = false) ∧ runImport false "h".data "i".data 2 [] =
      Except.error ("Cannot connect to ES at ".data ++ "h".data) :=
  ⟨rfl, (claim8_probe_gate "h".data "i".data 2 [] false rfl).1⟩

/-! ## Upload Target claims -/

theorem isPrefixOf_append (a b : List Char) : a.isPrefixOf (a ++ b) = true := by
  induction a with
  | nil => simp [List.isPrefixOf]
  | cons c a2 IH => simp [List.isPrefixOf, IH]

theorem takeWhile_append_all {p : Char → Bool} : ∀ (a b : List Char),
    (∀ c ∈ a, p c = true) → (∀ c, b.head? = some c → p c = false) →
    (a ++ b).takeWhile p = a ∧ (a ++ b).dropWhile p = b := by
  intro a
  induction a with
  | nil =>
    intro b _ hb
    cases b with
    | nil => exact ⟨rfl, rfl⟩
    | cons c bs =>
      have hc := hb c rfl
      constructor <;> simp [List.takeWhile_cons, List.dropWhile_cons, hc]
  | cons x a2 IH =>
    intro b ha hb
    have hx := ha x (List.mem_cons_self _ _)
    obtain ⟨h1, h2⟩ := IH b (fun c hc => ha c (List.mem_cons_of_mem _ hc)) hb
    constructor <;> simp [List.takeWhile_cons, List.dropWhile_cons, hx, h1, h2]

/-- Claim C9: `parse_http_target` rejects every URL that does not start
with `http://` and every URL whose port segment (after the first colon
of the host-port part) does not parse as a `u16`; an omitted port
resolves to 9200 (with everything from the first `/` on as base path);
and the bulk endpoint is `<base-path>/_bulk`. -/
theorem claim9_target_parsing :
    (∀ url : List Char, ("http://".data).isPrefixOf url = false →
      parse_http_target url = Except.error "Only http:// supported".data) ∧
    (∀ hp rest : List Char, '/' ∉ hp → (∀ c, rest.head? = some c → c = '/') →
      ((':' ∉ hp →
        parse_http_target ("http://".data ++ (hp ++ rest)) = Except.ok ⟨hp, 9200, rest⟩) ∧
      (∀ h p : List Char, hp = h ++ ':' :: p → ':' ∉ h → u16FromStr p = none →
        parse_http_target ("http://".data ++ (hp ++ rest)) =
          Except.error "Invalid port".data))) ∧
    (∀ t : HttpTarget, bulkPath t = t.base_path ++ "/_bulk".data) := by
  refine ⟨?_, ?_, fun t => rfl⟩
  · intro url h
    rw [parse_http_target, if_pos h]
  · intro hp rest hslash hrest
    have hpre : ¬ (("http://".data).isPrefixOf ("http://".data ++ (hp ++ rest)) = false) := by
      rw [isPrefixOf_append]
      simp
    have hdrop : ("http://".data ++ (hp ++ rest)).drop 7 = hp ++ rest := by
      have h7 : ("http://".data).length = 7 := rfl
      rw [← h7, List.drop_left]
    have htw := takeWhile_append_all (p := fun c => c != '/') hp rest
      (fun c hc => by
        have hcne : c ≠ '/' := fun hh => hslash (hh ▸ hc)
        simp [hcne])
      (fun c hc => by
        have hce := hrest c hc
        simp [hce])
    constructor
    · intro hcolon
      have hany : ¬ ((hp.any fun c => c == ':') = true) := by
        rw [List.any_eq_true]
        rintro ⟨x, hx, hbx⟩
        rw [beq_iff_eq] at hbx
        subst hbx
        exact hcolon hx
      rw [parse_http_target, if_neg hpre, hdrop, htw.1, htw.2, if_neg hany]
    · intro h p hhp hcol hupe
      have hany : (hp.any fun c => c == ':') = true := by
        rw [hhp, List.any_eq_true]
        exact ⟨':', List.mem_append_right _ (List.mem_cons_self _ _), by simp⟩
      have htc := takeWhile_append_all (p := fun c => c != ':') h (':' :: p)
        (fun c hc => by
          have hcne : c ≠ ':' := fun hh => hcol (hh ▸ hc)
          simp [hcne])
        (fun c hc => by
          have hce : c = ':' := Option.some.inj hc |>.symm
          simp [hce])
      rw [parse_http_target, if_neg hpre, hdrop, htw.1, htw.2, if_pos hany, hhp, htc.2,
        List.drop_succ_cons, List.drop_zero, hupe]

/-- Witness for `claim9_target_parsing`: the default port and base path
on `http://h/p`, and the scheme rejection on `ftp://h`. -/
theorem claim9_target_parsing_witness :
    ('/' ∉ "h".data ∧ ':' ∉ "h".data ∧ ("http://".data).isPrefixOf "ftp://h".data = false) ∧
    parse_http_target ("http://".data ++ ("h".data ++ "/p".data)) =
      Except.ok ⟨"h".data, 9200, "/p".data⟩ ∧
    parse_http_target "ftp://h".data = Except.error "Only http:// supported".data :=
  ⟨⟨by decide, by decide, by decide⟩,
    (claim9_target_parsing.2.1 "h".data "/p".data (by decide)
      (fun c hc => (Option.some.inj hc).symm)).1 (by decide),
    claim9_target_parsing.1 "ftp://h".data (by decide)⟩

end ElasticImporter
